import Mathlib

/-!
Shallow embedding of the negamax-othello engine: the board model and move
generation from game/board.py, the value types from game/api.py, and the
negamax search with its positional evaluation from game/ai.py.  Machine
integers in the source are Python arbitrary-precision ints, so they are
modelled as Int; board coordinates are Int with the bounds checks of
get_tile made explicit; the 8x8 grid is a total function on Fin 8 indices.
-/

set_option maxHeartbeats 1000000

namespace Othello

/-- Color enum from game/api.py: BLACK and WHITE, with other swapping them. -/
inductive Color where
  | black
  | white
deriving DecidableEq, Repr

def Color.other : Color → Color
  | Color.black => Color.white
  | Color.white => Color.black

/-- Tile enum from game/api.py: EMPTY, BLACK, WHITE and the GUI hint tile TIP. -/
inductive Tile where
  | empty
  | black
  | white
  | tip
deriving DecidableEq, Repr

/-- Tile.other: stone tiles swap, EMPTY and TIP (whose color is None) map to themselves. -/
def Tile.other : Tile → Tile
  | Tile.black => Tile.white
  | Tile.white => Tile.black
  | t => t

/-- Tile.for_color. The argument is Optional in effect: for_color(None) falls into the
else branch and yields WHITE, which is what the source does when next_to_move is None. -/
def Tile.forColor (c : Option Color) : Tile :=
  if c = some Color.black then Tile.black else Tile.white

/-- Tile.color restricted to the two stone tiles, on which it is never None in the
source; move construction only ever reads the color of a stone tile. -/
def Tile.stoneColor : Tile → Color
  | Tile.black => Color.black
  | _ => Color.white

/-- Move dataclass from game/api.py: a color plus board coordinates; skip moves
are encoded as out-of-range coordinates (-1, -1). -/
structure Move where
  color : Color
  x : Int
  y : Int
deriving DecidableEq, Repr

def Move.isSkip (m : Move) : Prop := m.x < 0

instance (m : Move) : Decidable m.isSkip := inferInstanceAs (Decidable (m.x < 0))

def Move.createSkip (c : Color) : Move := ⟨c, -1, -1⟩

/-- Score dataclass from game/api.py. -/
structure GameScore where
  blackStones : Nat
  whiteStones : Nat
  nextToMove : Option Color
deriving DecidableEq, Repr

/-- Score.winning_color: None on a tie, else the color with more stones. -/
def GameScore.winningColor (s : GameScore) : Option Color :=
  if s.blackStones = s.whiteStones then none
  else if s.blackStones > s.whiteStones then some Color.black else some Color.white

/-- ListImplementedBoard state: the 8x8 grid of tiles, the _next_to_move field
(None once the game is over) and the _empty_count bookkeeping field. -/
structure Board where
  tiles : Fin 8 → Fin 8 → Tile
  nextToMove : Option Color
  emptyCount : Int
deriving DecidableEq

def Board.finished (b : Board) : Prop := b.nextToMove = none

instance (b : Board) : Decidable b.finished :=
  inferInstanceAs (Decidable (b.nextToMove = none))

/-- get_tile: None outside the 0..7 range, else the grid cell. -/
def getTile (b : Board) (x y : Int) : Option Tile :=
  if h : 0 ≤ x ∧ x ≤ 7 ∧ 0 ≤ y ∧ y ≤ 7 then
    some (b.tiles ⟨x.toNat, by omega⟩ ⟨y.toNat, by omega⟩)
  else none

/-- Assignment self[x][y] = t.  Python list indexing wraps a negative index, hence
the mod 8; every write the program performs is at in-range coordinates anyway. -/
def setCell (b : Board) (x y : Int) (t : Tile) : Board :=
  { b with tiles := fun i j => if (i : Int) = x % 8 ∧ (j : Int) = y % 8 then t else b.tiles i j }

/-- Row-major enumeration of the 64 cells, the iteration order of _find_tiles. -/
def allCellsInt : List (Int × Int) :=
  (List.range 8).flatMap fun x => (List.range 8).map fun y => (Int.ofNat x, Int.ofNat y)

/-- The empty board a fresh ListImplementedBoard holds: all EMPTY, BLACK to move
(Board.__init__), _empty_count = 64. -/
def emptyBoard : Board :=
  { tiles := fun _ _ => Tile.empty, nextToMove := some Color.black, emptyCount := 64 }

/-- clear(): the four-stone opening on the fresh board, _empty_count = 60. -/
def clearedBoard : Board :=
  { setCell (setCell (setCell (setCell emptyBoard 3 3 Tile.white) 4 4 Tile.white)
      3 4 Tile.black) 4 3 Tile.black with emptyCount := 60 }

/-- _find_tiles: all cells holding the given tile, in row-major order. -/
def findTiles (b : Board) (t : Tile) : List (Int × Int) :=
  allCellsInt.filter fun p => getTile b p.1 p.2 == some t

/-- The eight compass offsets in the order _find_neighbour_tiles scans them
(dx in -1,0,1; dy in -1,0,1 skipping (0,0)). -/
def dirs : List (Int × Int) :=
  [(-1,-1), (-1,0), (-1,1), (0,-1), (0,1), (1,-1), (1,0), (1,1)]

/-- _find_neighbour_tiles: in-range neighbours of (x, y) holding the given tile;
the getTile comparison subsumes the 0..7 range checks of the source. -/
def findNeighbourTiles (b : Board) (x y : Int) (t : Tile) : List (Int × Int) :=
  (dirs.filter fun d => getTile b (x + d.1) (y + d.2) == some t).map
    fun d => (x + d.1, y + d.2)

/-- The while loops of board.py: starting at (x, y), step by (dx, dy) while the
current cell holds the given tile, returning the final coordinates and the list of
cells stepped over.  The source loop needs no fuel; a direction taken from dirs can
cross at most 8 cells of the board, so any fuel of at least 9 computes the loop. -/
def rayGo (b : Board) (other : Tile) : Nat → Int → Int → Int → Int → (Int × Int) × List (Int × Int)
  | 0, x, y, _, _ => ((x, y), [])
  | fuel+1, x, y, dx, dy =>
    if getTile b x y = some other then
      let r := rayGo b other fuel (x + dx) (y + dy) dx dy
      (r.1, (x, y) :: r.2)
    else ((x, y), [])

def rayEnd (b : Board) (other : Tile) (x y dx dy : Int) : Int × Int :=
  (rayGo b other 9 x y dx dy).1

def rayPath (b : Board) (other : Tile) (x y dx dy : Int) : List (Int × Int) :=
  (rayGo b other 9 x y dx dy).2

/-- The cell the ray scan of _valid_moves_for stops on, for origin (ox, oy) and
neighbour n: with dx, dy = n - origin, walk from one cell past the neighbour. -/
def scanDest (b : Board) (other : Tile) (ox oy : Int) (n : Int × Int) : Int × Int :=
  rayEnd b other (n.1 + (n.1 - ox)) (n.2 + (n.2 - oy)) (n.1 - ox) (n.2 - oy)

/-- Whether the ray scan from origin (ox, oy) through neighbour n stops on the
stop tile, the stepping_tile == stop test of _valid_moves_for. -/
def scanHit (b : Board) (other stop : Tile) (ox oy : Int) (n : Int × Int) : Prop :=
  getTile b (scanDest b other ox oy n).1 (scanDest b other ox oy n).2 = some stop

instance (b : Board) (other stop : Tile) (ox oy : Int) (n : Int × Int) :
    Decidable (scanHit b other stop ox oy n) :=
  inferInstanceAs (Decidable (_ = _))

/-- Inner loop of _valid_moves_for over the neighbour list of one origin: walk the
ray one past the neighbour, and on hitting the stop tile either record the origin
and break (add_start = true) or record the terminating cell and continue. -/
def scanOrigin (b : Board) (t other stop : Tile) (addStart : Bool) (ox oy : Int) :
    List (Int × Int) → List Move
  | [] => []
  | n :: ns =>
    if scanHit b other stop ox oy n then
      if addStart then [Move.mk t.stoneColor ox oy]
      else Move.mk t.stoneColor (scanDest b other ox oy n).1 (scanDest b other ox oy n).2
        :: scanOrigin b t other stop addStart ox oy ns
    else scanOrigin b t other stop addStart ox oy ns

/-- The start = EMPTY, stop = tile, add_start = True branch of _valid_moves_for:
seed at empty cells, require the ray to end on the mover stone, record the seed. -/
def movesEmptySeeded (b : Board) (t : Tile) : List Move :=
  (findTiles b Tile.empty).flatMap fun o =>
    scanOrigin b t t.other t true o.1 o.2 (findNeighbourTiles b o.1 o.2 t.other)

/-- The start = tile, stop = EMPTY, add_start = False branch of _valid_moves_for:
seed at the mover stones, require the ray to end on an empty cell, record that cell. -/
def movesStoneSeeded (b : Board) (t : Tile) : List Move :=
  (findTiles b t).flatMap fun o =>
    scanOrigin b t t.other Tile.empty false o.1 o.2 (findNeighbourTiles b o.1 o.2 t.other)

/-- _valid_moves_for: the branch on _empty_count < 50 selects the seeding strategy. -/
def validMovesFor (b : Board) (t : Tile) : List Move :=
  if b.emptyCount < 50 then movesEmptySeeded b t else movesStoneSeeded b t

/-- valid_moves: the moves of the color to move, falling back to the single skip
move when only the opponent can move, and to the empty list when nobody can. -/
def validMoves (b : Board) : List Move :=
  let t := Tile.forColor b.nextToMove
  let moves := validMovesFor b t
  if moves = [] then
    if validMovesFor b t.other = [] then [] else [Move.createSkip t.stoneColor]
  else moves

/-- One direction of the flip loop in _apply_destructive: collect the run starting
at neighbour n, and flip the whole run when it is bracketed by the mover stone. -/
def applyDir (b : Board) (t other : Tile) (mx my : Int) (n : Int × Int) : Board :=
  let dx := n.1 - mx
  let dy := n.2 - my
  let path := n :: rayPath b other (n.1 + dx) (n.2 + dy) dx dy
  let ending := rayEnd b other (n.1 + dx) (n.2 + dy) dx dy
  if getTile b ending.1 ending.2 = some t then
    path.foldl (fun bb p => setCell bb p.1 p.2 t) b
  else b

/-- _apply_destructive.  The source iterates the neighbour generator lazily while
mutating the board, but rays leaving the move cell in distinct directions share no
cell, so no flip can change a cell another direction reads or yields; computing the
neighbour list up front is therefore the same function. -/
def applyDestructive (b : Board) (m : Move) : Board :=
  let b1 := { b with nextToMove := some m.color.other }
  if m.isSkip then b1
  else
    let t := Tile.forColor (some m.color)
    let other := t.other
    let b2 := setCell b1 m.x m.y t
    let b3 := { b2 with emptyCount := b2.emptyCount - 1 }
    let b4 := (findNeighbourTiles b3 m.x m.y other).foldl
      (fun bb n => applyDir bb t other m.x m.y n) b3
    if validMoves b4 = [] then { b4 with nextToMove := none } else b4

/-- apply: clone then mutate the clone.  On board values the clone step is the
identity; the heap frame property of the clone is modelled separately below. -/
def applyBoard (b : Board) (m : Move) : Board :=
  applyDestructive b m

/-- Stone counting of the score property. -/
def countTile (b : Board) (t : Tile) : Nat :=
  (allCellsInt.filter fun p => getTile b p.1 p.2 == some t).length

/-- The score property: counts of both stone colors plus next_to_move. -/
def scoreOf (b : Board) : GameScore :=
  ⟨countTile b Tile.black, countTile b Tile.white, b.nextToMove⟩

/-! ## The negamax AI from game/ai.py -/

/-- The default 4x4 corner weight block SCORE_MATRIX. -/
def SCORE_MATRIX : List (List Int) :=
  [[20,  5,  5,  5],
   [ 5, -2, -1, -1],
   [ 5, -1,  0,  0],
   [ 5, -1,  0,  0]]

/-- NegaMaxPlayer.__init__: mirror each corner row horizontally, then mirror the
top half vertically, producing the full 8x8 weight matrix. -/
def buildMatrix (corner : List (List Int)) : List (List Int) :=
  let topHalf := corner.map fun row => row ++ row.reverse
  topHalf ++ topHalf.reverse

def defaultMatrix : List (List Int) := buildMatrix SCORE_MATRIX

/-- Python indexing self._matrix[x][y]; a negative index wraps from the end,
which the mod 8 reproduces on the index range the program can produce. -/
def matAt (M : List (List Int)) (x y : Int) : Int :=
  (((M.get? (x % 8).toNat).getD []).get? (y % 8).toNat).getD 0

/-- _evaluate_heuristic: weight of every cell holding the mover stone minus the
weight of every cell holding the opponent stone.  The source walks the 8 rows
zipped with the 8 matrix rows; summed per cell that is this sum. -/
def evaluateHeuristic (M : List (List Int)) (b : Board) (color : Option Color) : Int :=
  let myTile := Tile.forColor color
  let otherTile := myTile.other
  (allCellsInt.map fun p =>
    if getTile b p.1 p.2 = some myTile then matAt M p.1 p.2
    else if getTile b p.1 p.2 = some otherTile then -(matAt M p.1 p.2)
    else 0).sum

/-- _evaluate: terminal boards score 0 on a draw and plus or minus 999 by winner
(a None color compares unequal to any winner, as in the source); otherwise the
heuristic.  The color is Optional because next_move passes next_to_move through. -/
def evaluate (M : List (List Int)) (b : Board) (color : Option Color) : Int :=
  if b.nextToMove = none then
    match (scoreOf b).winningColor with
    | none => 0
    | some w => if color = some w then 999 else -999
  else evaluateHeuristic M b color

/-- neg from game/ai.py: None stays None, an int is negated. -/
def neg (i : Option Int) : Option Int := i.map fun v => -v

/-- NegamaxResult dataclass: a score and an optional best move. -/
structure NegamaxResult where
  score : Int
  move : Option Move := none
deriving DecidableEq, Repr

/-- Stable descending insertion by matrix preference of the destination cell:
a move is placed before the first strictly-or-equally lower-keyed element, so
equal keys keep their first-encountered order, exactly the output of the stable
reverse sort of the source. -/
def insertPref (M : List (List Int)) (m : Move) : List Move → List Move
  | [] => [m]
  | x :: xs =>
    if matAt M m.x m.y ≥ matAt M x.x x.y then m :: x :: xs
    else x :: insertPref M m xs

def sortMoves (M : List (List Int)) (l : List Move) : List Move :=
  l.foldr (insertPref M) []

/-- The value and best_move update of the loop body: value starts at None and is
replaced on a strictly greater child score, keeping the first maximizer on ties. -/
def valueUp (value : Option Int) (s : Int) (best : Option Move) (m : Move) :
    Option Int × Option Move :=
  match value with
  | none => (some s, some m)
  | some v => if s > v then (some s, some m) else (value, best)

/-- The alpha update of the loop body: alpha becomes value when alpha was None
or value exceeds it. -/
def alphaUp (alpha : Option Int) (value : Option Int) : Option Int :=
  match alpha, value with
  | none, v => v
  | some a0, some v => if v > a0 then some v else some a0
  | some a0, none => some a0

/-- The break test of the loop body: beta is not None and alpha is at least it.
The running alpha is always set once a candidate has been scored. -/
def cutoff (beta alpha : Option Int) : Bool :=
  match beta, alpha with
  | some b0, some a0 => b0 ≤ a0
  | _, _ => false

/-- The candidate loop of _negamax: value and best_move start at None, each child
score is compared with strict greater-than, alpha is raised to value when value
exceeds it (or alpha was None), and a bounded beta below-or-equal alpha breaks. -/
def negamaxFold (child : Move → Option Int → Int) (beta : Option Int) :
    List Move → Option Int → Option Move → Option Int → Option Int × Option Move
  | [], value, best, _ => (value, best)
  | m :: rest, value, best, alpha =>
    let s := child m alpha
    let vb := valueUp value s best m
    let a := alphaUp alpha vb.1
    if cutoff beta a then (vb.1, vb.2)
    else negamaxFold child beta rest vb.1 vb.2 a

/-- An optional bound that is no bound at all or at most -1000, the shape of the
alpha argument in a pruning-enabled root call. -/
def LoBound (a : Option Int) : Prop := ∀ v : Int, a = some v → v ≤ -1000

/-- An optional bound that is no bound at all or at least 1000. -/
def HiBound (a : Option Int) : Prop := ∀ v : Int, a = some v → 1000 ≤ v

/-- An optional bound strictly between -1000 and 1000 when present. -/
def MidBound (a : Option Int) : Prop := ∀ v : Int, a = some v → -1000 < v ∧ v < 1000

/-- Relation between the alpha arguments of a pruning-enabled search and its
unbounded counterpart: equal in-range bounds, or both effectively unbounded low. -/
def AlphaRel (a1 a2 : Option Int) : Prop :=
  (a1 = a2 ∧ MidBound a1) ∨ (LoBound a1 ∧ LoBound a2)

/-- The corresponding relation between the beta arguments. -/
def BetaRel (b1 b2 : Option Int) : Prop :=
  (b1 = b2 ∧ MidBound b1) ∨ (HiBound b1 ∧ HiBound b2)

/-- _negamax.  At depth 0, on a finished board, or with no valid moves the static
evaluation is returned with no move.  Otherwise the moves are sorted by descending
matrix preference and fed to the loop; each child is searched with negated swapped
bounds, where alpha is the live loop variable.  The final value is always set
after at least one iteration, so the getD default is never read. -/
def negamax (M : List (List Int)) :
    Nat → Board → Option Int → Option Int → Option Color → NegamaxResult
  | 0, b, _, _, c => ⟨evaluate M b c, none⟩
  | d+1, b, alpha, beta, c =>
    if b.nextToMove = none then ⟨evaluate M b c, none⟩
    else
      let vm := validMoves b
      if vm = [] then ⟨evaluate M b c, none⟩
      else
        let sorted := sortMoves M vm
        let r := negamaxFold
          (fun m a => -(negamax M d (applyBoard b m) (neg beta) (neg a)
            (c.map Color.other)).score)
          beta sorted none none alpha
        ⟨r.1.getD 0, r.2⟩

/-- next_move: run negamax from the root with unbounded alpha and beta and the
board next_to_move as the color; the pair is the returned move and the score
recorded into _last_score. -/
def nextMove (M : List (List Int)) (depth : Nat) (b : Board) : Option Move × Int :=
  let r := negamax M depth b none none b.nextToMove
  (r.move, r.score)

/-! ## The bracket characterization of legal destinations -/

/-- RunOther b other o d K: the K cells after o in direction d all hold the
opponent stone. -/
def RunOther (b : Board) (other : Tile) (o d : Int × Int) (K : Int) : Prop :=
  ∀ i : Int, 1 ≤ i → i ≤ K → getTile b (o.1 + i * d.1) (o.2 + i * d.2) = some other

/-- A cell is a legal destination for the stone tile t: it is empty and in some
direction a nonempty run of opponent stones after it is bracketed by a t stone. -/
def LegalDest (b : Board) (t : Tile) (e : Int × Int) : Prop :=
  getTile b e.1 e.2 = some Tile.empty ∧
    ∃ d ∈ dirs, ∃ K : Int, 1 ≤ K ∧ RunOther b t.other e d K ∧
      getTile b (e.1 + (K + 1) * d.1) (e.2 + (K + 1) * d.2) = some t

/-- The color owning tile t has at least one legal capturing move on the grid. -/
def HasMove (b : Board) (t : Tile) : Prop := ∃ e, LegalDest b t e

/-- Boards reachable from the cleared opening position by repeatedly applying
moves taken from valid_moves, the game loop of Game.run. -/
inductive Reachable : Board → Prop where
  | base : Reachable clearedBoard
  | step {b : Board} {m : Move} : Reachable b → m ∈ validMoves b → Reachable (applyBoard b m)

/-- Test position with row 0 holding B W _ W B: black to move captures at (0, 2)
along two opposite rays, so the stone-seeded generator records it twice. -/
def demoDupBoard : Board :=
  { setCell (setCell (setCell (setCell emptyBoard 0 0 Tile.black) 0 1 Tile.white)
      0 3 Tile.white) 0 4 Tile.black with emptyCount := 60 }

/-- Test position with row 0 holding W B: black (to move) has no capture while
white has one, so valid_moves yields exactly the black skip move. -/
def demoSkipBoard : Board :=
  { setCell (setCell emptyBoard 0 0 Tile.white) 0 1 Tile.black with emptyCount := 62 }

/-- Test position with black stones at (1, 4) and (4, 1) behind a transpose
symmetric white wall through (4, 4): black has exactly two captures, at (5, 4)
and (4, 5), with equal matrix weight 0 and, by the symmetry, equal depth-1
values; the empty-seeded strategy emits (4, 5) first (row-major over empties)
while the stone-seeded strategy emits (5, 4) first (its stone (1, 4) precedes
(4, 1) row-major).  The grid really has 57 empty cells. -/
def demoTieBoard : Board :=
  { setCell (setCell (setCell (setCell (setCell (setCell (setCell emptyBoard
      1 4 Tile.black) 4 1 Tile.black)
      2 4 Tile.white) 3 4 Tile.white) 4 4 Tile.white)
      4 2 Tile.white) 4 3 Tile.white with emptyCount := 57 }

/-- The identical position with the empty counter lowered below the threshold,
so that _valid_moves_for takes the empty-seeded branch instead. -/
def demoTieBoardLate : Board :=
  { demoTieBoard with emptyCount := 10 }

/-- A terminal board with equal stone counts: the opening grid marked finished. -/
def termDrawBoard : Board :=
  { clearedBoard with nextToMove := none }

/-- A terminal board with three black and two white stones: black is the winner. -/
def termWinBoard : Board :=
  { setCell demoDupBoard 1 1 Tile.black with nextToMove := none }

/-! ## Heap model of clone-then-mutate for the apply frame property

The grid of a ListImplementedBoard is a list of eight mutable BoardRow objects.
The construction BoardRow(row) inside _clone copies the cells of a row into a
fresh row object, so a clone shares no row with its source; scalar fields are
copied by value onto the fresh board object.  The heap of row objects is
modelled as a store indexed by natural addresses with a bump allocator. -/

structure RowStore where
  rows : Nat → Fin 8 → Tile
  alloc : Nat

structure BoardObj where
  rowRefs : Fin 8 → Nat
  nextToMove : Option Color
  emptyCount : Int

/-- The board value a board object denotes in a store. -/
def viewBoard (s : RowStore) (o : BoardObj) : Board :=
  { tiles := fun i j => s.rows (o.rowRefs i) j,
    nextToMove := o.nextToMove,
    emptyCount := o.emptyCount }

/-- A board object is well formed when all its row references are allocated. -/
def BoardObj.wf (o : BoardObj) (s : RowStore) : Prop :=
  ∀ i : Fin 8, o.rowRefs i < s.alloc

/-- _clone: eight fresh row objects holding copies of the source rows, and a new
board object referencing them with the scalar fields copied. -/
def cloneH (s : RowStore) (o : BoardObj) : RowStore × BoardObj :=
  ({ rows := fun r j =>
      if h : s.alloc ≤ r ∧ r < s.alloc + 8 then s.rows (o.rowRefs ⟨r - s.alloc, by omega⟩) j
      else s.rows r j,
     alloc := s.alloc + 8 },
   { rowRefs := fun i => s.alloc + i,
     nextToMove := o.nextToMove,
     emptyCount := o.emptyCount })

/-- Heap effect of _apply_destructive on the object it runs on: its only grid
writes are self[x][y] = tile (stone placement and flips), which target rows of
self, and its scalar writes target self; so the rows referenced by the object
are overwritten with the rows of the pure result and all other rows are kept. -/
def applyDestructiveH (s : RowStore) (o : BoardObj) (m : Move) : RowStore × BoardObj :=
  let result := applyDestructive (viewBoard s o) m
  ({ rows := (List.finRange 8).foldl
      (fun f i => fun r j => if r = o.rowRefs i then result.tiles i j else f r j) s.rows,
     alloc := s.alloc },
   { o with nextToMove := result.nextToMove, emptyCount := result.emptyCount })

/-- apply: clone, then run the destructive step on the clone. -/
def applyH (s : RowStore) (o : BoardObj) (m : Move) : RowStore × BoardObj :=
  let sc := cloneH s o
  applyDestructiveH sc.1 sc.2 m

/-- A concrete store and board object for witnesses: eight empty rows at
addresses 0 through 7. -/
def demoStore : RowStore :=
  { rows := fun _ _ => Tile.empty, alloc := 8 }

def demoObj : BoardObj :=
  { rowRefs := fun i => i, nextToMove := some Color.black, emptyCount := 64 }

theorem getTile_bounds {b : Board} {x y : Int} {t : Tile} (h : getTile b x y = some t) :
    0 ≤ x ∧ x ≤ 7 ∧ 0 ≤ y ∧ y ≤ 7 := by
  by_contra hb
  rw [getTile, dif_neg hb] at h
  exact Option.noConfusion h

theorem mem_allCellsInt {p : Int × Int} :
    p ∈ allCellsInt ↔ 0 ≤ p.1 ∧ p.1 ≤ 7 ∧ 0 ≤ p.2 ∧ p.2 ≤ 7 := by
  constructor
  · intro h
    obtain ⟨x, hx, hmem⟩ := List.mem_flatMap.mp h
    obtain ⟨y, hy, hp⟩ := List.mem_map.mp hmem
    rw [List.mem_range] at hx hy
    rw [← hp]
    dsimp only
    simp only [Int.ofNat_eq_natCast]
    omega
  · rintro ⟨h1, h2, h3, h4⟩
    rcases p with ⟨a, c⟩
    simp only at h1 h2 h3 h4
    have ha : Int.ofNat a.toNat = a := Int.toNat_of_nonneg h1
    have hc : Int.ofNat c.toNat = c := Int.toNat_of_nonneg h3
    have hmem : (Int.ofNat a.toNat, Int.ofNat c.toNat) ∈ allCellsInt := by
      unfold allCellsInt
      exact List.mem_flatMap.mpr ⟨a.toNat, List.mem_range.mpr (show a.toNat < 8 by omega),
        List.mem_map.mpr ⟨c.toNat, List.mem_range.mpr (show c.toNat < 8 by omega), rfl⟩⟩
    rwa [ha, hc] at hmem

theorem mem_findTiles {b : Board} {t : Tile} {p : Int × Int} :
    p ∈ findTiles b t ↔ getTile b p.1 p.2 = some t := by
  simp only [findTiles, List.mem_filter, beq_iff_eq]
  constructor
  · exact fun h => h.2
  · intro h
    exact ⟨mem_allCellsInt.mpr (getTile_bounds h), h⟩

theorem mem_findNeighbourTiles {b : Board} {x y : Int} {t : Tile} {n : Int × Int} :
    n ∈ findNeighbourTiles b x y t ↔
      ∃ d ∈ dirs, n = (x + d.1, y + d.2) ∧ getTile b n.1 n.2 = some t := by
  simp only [findNeighbourTiles, List.mem_map, List.mem_filter, beq_iff_eq]
  constructor
  · rintro ⟨d, ⟨hd, hg⟩, rfl⟩
    exact ⟨d, hd, rfl, hg⟩
  · rintro ⟨d, hd, rfl, hg⟩
    exact ⟨d, ⟨hd, hg⟩, rfl⟩

theorem dirs_neg_mem {d : Int × Int} (hd : d ∈ dirs) : (-d.1, -d.2) ∈ dirs := by
  fin_cases hd <;> decide

theorem dirs_small {d : Int × Int} (hd : d ∈ dirs) :
    (d.1 = -1 ∨ d.1 = 0 ∨ d.1 = 1) ∧ (d.2 = -1 ∨ d.2 = 0 ∨ d.2 = 1) ∧ ¬(d.1 = 0 ∧ d.2 = 0) := by
  fin_cases hd <;> decide

/-- Correctness of the fueled while loop: if the first k cells hold the stepping
tile and cell k does not, any fuel above k stops exactly at cell k. -/
theorem rayGo_fst_eq (b : Board) (other : Tile) (dx dy : Int) :
    ∀ (k f : Nat) (x y : Int), k < f →
      (∀ i : Nat, i < k → getTile b (x + (i : Int) * dx) (y + (i : Int) * dy) = some other) →
      getTile b (x + (k : Int) * dx) (y + (k : Int) * dy) ≠ some other →
      (rayGo b other f x y dx dy).1 = (x + (k : Int) * dx, y + (k : Int) * dy) := by
  intro k
  induction k with
  | zero =>
    intro f x y hf _ hstop
    obtain ⟨f', rfl⟩ : ∃ f', f = f' + 1 := ⟨f - 1, by omega⟩
    simp only [Nat.cast_zero, zero_mul, add_zero] at hstop ⊢
    simp [rayGo, hstop]
  | succ k ih =>
    intro f x y hf hrun hstop
    obtain ⟨f', rfl⟩ : ∃ f', f = f' + 1 := ⟨f - 1, by omega⟩
    have h0 : getTile b x y = some other := by
      have := hrun 0 (by omega)
      simpa using this
    have hrun' : ∀ i : Nat, i < k →
        getTile b ((x + dx) + (i : Int) * dx) ((y + dy) + (i : Int) * dy) = some other := by
      intro i hi
      have h := hrun (i + 1) (by omega)
      have hx : x + (((i : Int)) + 1) * dx = (x + dx) + (i : Int) * dx := by ring
      have hy : y + (((i : Int)) + 1) * dy = (y + dy) + (i : Int) * dy := by ring
      rw [Nat.cast_add, Nat.cast_one, hx, hy] at h
      exact h
    have hstop' : getTile b ((x + dx) + (k : Int) * dx) ((y + dy) + (k : Int) * dy)
        ≠ some other := by
      intro hc
      apply hstop
      have hx2 : x + (((k : Int)) + 1) * dx = (x + dx) + (k : Int) * dx := by ring
      have hy2 : y + (((k : Int)) + 1) * dy = (y + dy) + (k : Int) * dy := by ring
      rw [Nat.cast_add, Nat.cast_one, hx2, hy2]
      exact hc
    have hres := ih f' (x + dx) (y + dy) (by omega) hrun' hstop'
    have hgoal : (rayGo b other (f' + 1) x y dx dy).1
        = (rayGo b other f' (x + dx) (y + dy) dx dy).1 := by
      simp [rayGo, h0]
    rw [hgoal, hres]
    simp only [Prod.mk.injEq]
    constructor <;> · push_cast; ring

/-- Along a direction from dirs, within the first 9 cells of a ray there is one
not holding the stepping tile, and the first such index is at most 8. -/
theorem rayRun_exists (b : Board) (other : Tile) {dx dy : Int}
    (hd : (dx, dy) ∈ dirs) (x y : Int) :
    ∃ k : Nat, k ≤ 8 ∧
      (∀ i : Nat, i < k → getTile b (x + (i : Int) * dx) (y + (i : Int) * dy) = some other) ∧
      getTile b (x + (k : Int) * dx) (y + (k : Int) * dy) ≠ some other := by
  have hw : ∃ k : Nat, k ≤ 8 ∧
      getTile b (x + (k : Int) * dx) (y + (k : Int) * dy) ≠ some other := by
    by_contra hall
    push_neg at hall
    have h0 := hall 0 (by omega)
    have h8 := hall 8 (by omega)
    have hb0 := getTile_bounds h0
    have hb8 := getTile_bounds h8
    obtain ⟨hdx, hdy, hnz⟩ := dirs_small hd
    simp only at hdx hdy hnz
    simp only [Nat.cast_zero, zero_mul, add_zero] at hb0
    have h8' : ((8 : Nat) : Int) = 8 := by norm_num
    rw [h8'] at hb8
    rcases hdx with h | h | h <;> rcases hdy with h' | h' | h' <;>
      (try exact hnz ⟨h, h'⟩) <;> rw [h, h'] at hb8 <;> omega
  classical
  have hex : ∃ k : Nat, getTile b (x + (k : Int) * dx) (y + (k : Int) * dy) ≠ some other :=
    ⟨hw.choose, hw.choose_spec.2⟩
  refine ⟨Nat.find hex, ?_, ?_, Nat.find_spec hex⟩
  · exact le_trans (Nat.find_min' hex hw.choose_spec.2) hw.choose_spec.1
  · intro i hi
    have := Nat.find_min hex hi
    rwa [not_not] at this

theorem mem_scanOrigin_true {b : Board} {t other stop : Tile} {ox oy : Int} {m : Move} :
    ∀ {ns : List (Int × Int)},
      m ∈ scanOrigin b t other stop true ox oy ns ↔
        m = Move.mk t.stoneColor ox oy ∧ ∃ n ∈ ns, scanHit b other stop ox oy n := by
  intro ns
  induction ns with
  | nil => simp [scanOrigin]
  | cons n ns ih =>
    by_cases h : scanHit b other stop ox oy n
    · simp only [scanOrigin, if_pos h, if_true, List.mem_singleton]
      constructor
      · intro hm
        exact ⟨hm, n, List.mem_cons_self n ns, h⟩
      · rintro ⟨rfl, _⟩
        rfl
    · simp only [scanOrigin, if_neg h]
      rw [ih]
      constructor
      · rintro ⟨rfl, n', hn', hh⟩
        exact ⟨rfl, n', List.mem_cons_of_mem _ hn', hh⟩
      · rintro ⟨rfl, n', hn', hh⟩
        rcases List.mem_cons.mp hn' with rfl | hn''
        · exact absurd hh h
        · exact ⟨rfl, n', hn'', hh⟩

theorem mem_scanOrigin_false {b : Board} {t other stop : Tile} {ox oy : Int} {m : Move} :
    ∀ {ns : List (Int × Int)},
      m ∈ scanOrigin b t other stop false ox oy ns ↔
        ∃ n ∈ ns, scanHit b other stop ox oy n ∧
          m = Move.mk t.stoneColor (scanDest b other ox oy n).1 (scanDest b other ox oy n).2 := by
  intro ns
  induction ns with
  | nil => simp [scanOrigin]
  | cons n ns ih =>
    by_cases h : scanHit b other stop ox oy n
    · simp only [scanOrigin, if_pos h]
      rw [if_neg (by decide : ¬(false = true)), List.mem_cons, ih]
      constructor
      · rintro (rfl | ⟨n', hn', hh, rfl⟩)
        · exact ⟨n, List.mem_cons_self n ns, h, rfl⟩
        · exact ⟨n', List.mem_cons_of_mem _ hn', hh, rfl⟩
      · rintro ⟨n', hn', hh, rfl⟩
        rcases List.mem_cons.mp hn' with rfl | hn''
        · exact Or.inl rfl
        · exact Or.inr ⟨n', hn'', hh, rfl⟩
    · simp only [scanOrigin, if_neg h]
      rw [ih]
      constructor
      · rintro ⟨n', hn', hh, rfl⟩
        exact ⟨n', List.mem_cons_of_mem _ hn', hh, rfl⟩
      · rintro ⟨n', hn', hh, rfl⟩
        rcases List.mem_cons.mp hn' with rfl | hn''
        · exact absurd hh h
        · exact ⟨n', hn'', hh, rfl⟩

/-- Bound on a bracketed run: both the seed cell and the terminating cell are on
the board, so along a dirs direction the run length is at most 6. -/
theorem run_bound {b : Board} {d : Int × Int} (hd : d ∈ dirs) {ox oy K : Int}
    (_hK : 1 ≤ K) {u v : Tile} (ho : getTile b ox oy = some u)
    (hterm : getTile b (ox + (K + 1) * d.1) (oy + (K + 1) * d.2) = some v) : K ≤ 6 := by
  have hb0 := getTile_bounds ho
  have hb1 := getTile_bounds hterm
  obtain ⟨hdx, hdy, hnz⟩ := dirs_small hd
  rcases hdx with h | h | h <;> rcases hdy with h' | h' | h' <;>
    rw [h, h'] at hb1 hnz <;> omega

/-- If a run of K opponent stones after the origin is terminated by a cell not
holding the opponent stone, the ray walk from two past the origin stops there. -/
theorem scanDest_eq_of_run {b : Board} {other : Tile} {d : Int × Int} (_hd : d ∈ dirs)
    {ox oy K : Int} (hK : 1 ≤ K) (hKb : K ≤ 7)
    (hrun : RunOther b other (ox, oy) d K)
    (hstop : getTile b (ox + (K + 1) * d.1) (oy + (K + 1) * d.2) ≠ some other) :
    scanDest b other ox oy (ox + d.1, oy + d.2)
      = (ox + (K + 1) * d.1, oy + (K + 1) * d.2) := by
  have hst1 : (ox + d.1) + ((ox + d.1) - ox) = ox + 2 * d.1 := by ring
  have hst2 : (oy + d.2) + ((oy + d.2) - oy) = oy + 2 * d.2 := by ring
  have hsub1 : (ox + d.1) - ox = d.1 := by ring
  have hsub2 : (oy + d.2) - oy = d.2 := by ring
  unfold scanDest rayEnd
  rw [hsub1, hsub2, show (ox + d.1) + d.1 = ox + 2 * d.1 from by ring,
    show (oy + d.2) + d.2 = oy + 2 * d.2 from by ring]
  have hk : ((K - 1).toNat : Int) = K - 1 := Int.toNat_of_nonneg (by omega)
  have hmain := rayGo_fst_eq b other d.1 d.2 (K - 1).toNat 9 (ox + 2 * d.1) (oy + 2 * d.2)
    (by omega) ?_ ?_
  · rw [hmain, hk]
    simp only [Prod.mk.injEq]
    constructor <;> ring
  · intro i hi
    have hi' : (i : Int) ≤ K - 2 := by omega
    have hcell := hrun ((i : Int) + 2) (by omega) (by omega)
    have hx : ox + ((i : Int) + 2) * d.1 = (ox + 2 * d.1) + (i : Int) * d.1 := by ring
    have hy : oy + ((i : Int) + 2) * d.2 = (oy + 2 * d.2) + (i : Int) * d.2 := by ring
    rw [hx, hy] at hcell
    exact hcell
  · rw [hk]
    have hx : (ox + 2 * d.1) + (K - 1) * d.1 = ox + (K + 1) * d.1 := by ring
    have hy : (oy + 2 * d.2) + (K - 1) * d.2 = oy + (K + 1) * d.2 := by ring
    rw [hx, hy]
    exact hstop

/-- Conversely, if the cell after the origin holds the opponent stone, the ray
walk from two past the origin determines a maximal run of opponent stones. -/
theorem scanDest_run_exists {b : Board} {other : Tile} {d : Int × Int} (hd : d ∈ dirs)
    {ox oy : Int} (hn : getTile b (ox + d.1) (oy + d.2) = some other) :
    ∃ K : Int, 1 ≤ K ∧ RunOther b other (ox, oy) d K ∧
      scanDest b other ox oy (ox + d.1, oy + d.2)
        = (ox + (K + 1) * d.1, oy + (K + 1) * d.2) ∧
      getTile b (ox + (K + 1) * d.1) (oy + (K + 1) * d.2) ≠ some other := by
  have hd' : (d.1, d.2) ∈ dirs := by rwa [Prod.mk.eta]
  obtain ⟨k, hk8, hkrun, hkstop⟩ := rayRun_exists b other hd' (ox + 2 * d.1) (oy + 2 * d.2)
  refine ⟨(k : Int) + 1, by omega, ?_, ?_, ?_⟩
  · intro i h1 h2
    rcases eq_or_lt_of_le h1 with h | h
    · rw [← h]
      simpa using hn
    · have hj : ((i - 2).toNat : Int) = i - 2 := Int.toNat_of_nonneg (by omega)
      have := hkrun (i - 2).toNat (by omega)
      rw [hj] at this
      have hx : (ox + 2 * d.1) + (i - 2) * d.1 = ox + i * d.1 := by ring
      have hy : (oy + 2 * d.2) + (i - 2) * d.2 = oy + i * d.2 := by ring
      rw [hx, hy] at this
      exact this
  · unfold scanDest rayEnd
    rw [show (ox + d.1) - ox = d.1 from by ring, show (oy + d.2) - oy = d.2 from by ring,
      show (ox + d.1) + d.1 = ox + 2 * d.1 from by ring,
      show (oy + d.2) + d.2 = oy + 2 * d.2 from by ring]
    have hmain := rayGo_fst_eq b other d.1 d.2 k 9 (ox + 2 * d.1) (oy + 2 * d.2)
      (by omega) hkrun hkstop
    rw [hmain]
    simp only [Prod.mk.injEq]
    constructor <;> ring
  · have hx : ox + ((k : Int) + 1 + 1) * d.1 = (ox + 2 * d.1) + (k : Int) * d.1 := by ring
    have hy : oy + ((k : Int) + 1 + 1) * d.2 = (oy + 2 * d.2) + (k : Int) * d.2 := by ring
    rw [hx, hy]
    exact hkstop

theorem stone_ne_other {t : Tile} (ht : t = Tile.black ∨ t = Tile.white) :
    t ≠ t.other := by
  rcases ht with rfl | rfl <;> decide

theorem stone_other_stone {t : Tile} (ht : t = Tile.black ∨ t = Tile.white) :
    t.other = Tile.black ∨ t.other = Tile.white := by
  rcases ht with rfl | rfl <;> simp [Tile.other]

theorem empty_ne_stone {t : Tile} (ht : t = Tile.black ∨ t = Tile.white) :
    Tile.empty ≠ t := by
  rcases ht with rfl | rfl <;> decide

/-- Membership in the empty-seeded strategy list is exactly the bracket property:
the move has the mover color and its cell is a legal destination. -/
theorem mem_movesEmptySeeded {b : Board} {t : Tile} {m : Move}
    (ht : t = Tile.black ∨ t = Tile.white) :
    m ∈ movesEmptySeeded b t ↔ m.color = t.stoneColor ∧ LegalDest b t (m.x, m.y) := by
  constructor
  · intro h
    obtain ⟨o, ho, hm⟩ := List.mem_flatMap.mp h
    rw [mem_findTiles] at ho
    obtain ⟨hmeq, n, hn, hh⟩ := mem_scanOrigin_true.mp hm
    obtain ⟨d, hd, hneq, hng⟩ := mem_findNeighbourTiles.mp hn
    subst hneq
    subst hmeq
    obtain ⟨K, hK1, hrun, hdest, hstop⟩ := scanDest_run_exists hd (by simpa using hng)
    unfold scanHit at hh
    rw [hdest] at hh
    simp only at hh
    exact ⟨rfl, ho, d, hd, K, hK1, hrun, hh⟩
  · rintro ⟨hc, he, d, hd, K, hK1, hrun, hterm⟩
    have he' : getTile b m.x m.y = some Tile.empty := he
    have hterm' : getTile b (m.x + (K + 1) * d.1) (m.y + (K + 1) * d.2) = some t := hterm
    have hb6 : K ≤ 6 := run_bound hd hK1 he' hterm'
    have htne : t ≠ t.other := stone_ne_other ht
    have hstop : getTile b (m.x + (K + 1) * d.1) (m.y + (K + 1) * d.2) ≠ some t.other := by
      intro hcon
      rw [hterm'] at hcon
      exact htne (Option.some.inj hcon)
    have hdest := scanDest_eq_of_run hd hK1 (by omega) hrun hstop
    have hn1 : getTile b (m.x + d.1) (m.y + d.2) = some t.other := by
      have := hrun 1 le_rfl hK1
      simpa using this
    refine List.mem_flatMap.mpr ⟨(m.x, m.y), mem_findTiles.mpr he', ?_⟩
    apply mem_scanOrigin_true.mpr
    refine ⟨?_, (m.x + d.1, m.y + d.2),
      mem_findNeighbourTiles.mpr ⟨d, hd, rfl, by simpa using hn1⟩, ?_⟩
    · cases m
      simp only at hc
      rw [hc]
    · unfold scanHit
      rw [hdest]
      simpa using hterm'

/-- Membership in the stone-seeded strategy list is the same bracket property,
via reversing the bracketing direction. -/
theorem mem_movesStoneSeeded {b : Board} {t : Tile} {m : Move}
    (ht : t = Tile.black ∨ t = Tile.white) :
    m ∈ movesStoneSeeded b t ↔ m.color = t.stoneColor ∧ LegalDest b t (m.x, m.y) := by
  constructor
  · intro h
    obtain ⟨o, ho, hm⟩ := List.mem_flatMap.mp h
    rw [mem_findTiles] at ho
    obtain ⟨n, hn, hh, hmeq⟩ := mem_scanOrigin_false.mp hm
    obtain ⟨d, hd, hneq, hng⟩ := mem_findNeighbourTiles.mp hn
    subst hneq
    obtain ⟨K, hK1, hrun, hdest, hstop⟩ := scanDest_run_exists hd (by simpa using hng)
    unfold scanHit at hh
    rw [hdest] at hh
    simp only at hh
    rw [hdest] at hmeq
    simp only at hmeq
    subst hmeq
    refine ⟨rfl, hh, (-d.1, -d.2), dirs_neg_mem hd, K, hK1, ?_, ?_⟩
    · intro i h1 h2
      have hcell := hrun (K + 1 - i) (by omega) (by omega)
      have hx : o.1 + (K + 1 - i) * d.1 = (o.1 + (K + 1) * d.1) + i * (-d.1) := by ring
      have hy : o.2 + (K + 1 - i) * d.2 = (o.2 + (K + 1) * d.2) + i * (-d.2) := by ring
      rw [hx, hy] at hcell
      exact hcell
    · have hx : (o.1 + (K + 1) * d.1) + (K + 1) * (-d.1) = o.1 := by ring
      have hy : (o.2 + (K + 1) * d.2) + (K + 1) * (-d.2) = o.2 := by ring
      simp only
      rw [hx, hy]
      exact ho
  · rintro ⟨hc, he, d, hd, K, hK1, hrun, hterm⟩
    have he' : getTile b m.x m.y = some Tile.empty := he
    have hterm' : getTile b (m.x + (K + 1) * d.1) (m.y + (K + 1) * d.2) = some t := hterm
    have hone : t.other ≠ Tile.empty := by
      rcases ht with rfl | rfl <;> decide
    -- the seeding stone and the reversed direction
    have hdneg : ((-d.1 : Int), (-d.2 : Int)) ∈ dirs := dirs_neg_mem hd
    have hrun' : RunOther b t.other (m.x + (K + 1) * d.1, m.y + (K + 1) * d.2)
        (-d.1, -d.2) K := by
      intro i h1 h2
      have hcell := hrun (K + 1 - i) (by omega) (by omega)
      have hx : m.x + (K + 1 - i) * d.1 = (m.x + (K + 1) * d.1) + i * (-d.1) := by ring
      have hy : m.y + (K + 1 - i) * d.2 = (m.y + (K + 1) * d.2) + i * (-d.2) := by ring
      rw [hx, hy] at hcell
      exact hcell
    have hback : getTile b ((m.x + (K + 1) * d.1) + (K + 1) * (-d.1))
        ((m.y + (K + 1) * d.2) + (K + 1) * (-d.2)) = some Tile.empty := by
      have hx : (m.x + (K + 1) * d.1) + (K + 1) * (-d.1) = m.x := by ring
      have hy : (m.y + (K + 1) * d.2) + (K + 1) * (-d.2) = m.y := by ring
      rw [hx, hy]
      exact he'
    have hstopne : getTile b ((m.x + (K + 1) * d.1) + (K + 1) * (-d.1))
        ((m.y + (K + 1) * d.2) + (K + 1) * (-d.2)) ≠ some t.other := by
      rw [hback]
      intro hcon
      exact hone (Option.some.inj hcon).symm
    have hb6 : K ≤ 6 :=
      @run_bound b (-d.1, -d.2) hdneg (m.x + (K + 1) * d.1) (m.y + (K + 1) * d.2) K hK1
        t Tile.empty hterm' hback
    have hdest := scanDest_eq_of_run hdneg hK1 (by omega) hrun' hstopne
    have hn1 : getTile b ((m.x + (K + 1) * d.1) + (-d.1)) ((m.y + (K + 1) * d.2) + (-d.2))
        = some t.other := by
      have := hrun K (by omega) le_rfl
      have hx : m.x + K * d.1 = (m.x + (K + 1) * d.1) + (-d.1) := by ring
      have hy : m.y + K * d.2 = (m.y + (K + 1) * d.2) + (-d.2) := by ring
      rw [hx, hy] at this
      exact this
    refine List.mem_flatMap.mpr ⟨(m.x + (K + 1) * d.1, m.y + (K + 1) * d.2),
      mem_findTiles.mpr hterm', ?_⟩
    apply mem_scanOrigin_false.mpr
    refine ⟨((m.x + (K + 1) * d.1) + (-d.1), (m.y + (K + 1) * d.2) + (-d.2)),
      mem_findNeighbourTiles.mpr ⟨(-d.1, -d.2), hdneg, rfl, by simpa using hn1⟩, ?_, ?_⟩
    · unfold scanHit
      rw [hdest]
      simpa using hback
    · rw [hdest]
      simp only
      have hx : (m.x + (K + 1) * d.1) + (K + 1) * (-d.1) = m.x := by ring
      have hy : (m.y + (K + 1) * d.2) + (K + 1) * (-d.2) = m.y := by ring
      rw [hx, hy]
      cases m
      simp only at hc
      rw [hc]

theorem forColor_stone_any (oc : Option Color) :
    Tile.forColor oc = Tile.black ∨ Tile.forColor oc = Tile.white := by
  rcases oc with _ | c
  · right; rfl
  · cases c
    · left; rfl
    · right; rfl

theorem stoneColor_forColor (c : Color) : (Tile.forColor (some c)).stoneColor = c := by
  cases c <;> rfl

theorem mem_validMovesFor {b : Board} {t : Tile} {m : Move}
    (ht : t = Tile.black ∨ t = Tile.white) :
    m ∈ validMovesFor b t ↔ m.color = t.stoneColor ∧ LegalDest b t (m.x, m.y) := by
  unfold validMovesFor
  split
  · exact mem_movesEmptySeeded ht
  · exact mem_movesStoneSeeded ht

theorem validMovesFor_nil_iff {b : Board} {t : Tile}
    (ht : t = Tile.black ∨ t = Tile.white) :
    validMovesFor b t = [] ↔ ¬ HasMove b t := by
  rw [List.eq_nil_iff_forall_not_mem]
  constructor
  · rintro hall ⟨e, hle⟩
    refine hall (Move.mk t.stoneColor e.1 e.2) ((mem_validMovesFor ht).mpr ⟨rfl, ?_⟩)
    simpa using hle
  · intro hno m hm
    obtain ⟨_, hl⟩ := (mem_validMovesFor ht).mp hm
    exact hno ⟨(m.x, m.y), hl⟩

theorem nonskip_of_mem_validMovesFor {b : Board} {t : Tile} {m : Move}
    (ht : t = Tile.black ∨ t = Tile.white) (hm : m ∈ validMovesFor b t) : ¬ m.isSkip := by
  obtain ⟨_, hl⟩ := (mem_validMovesFor ht).mp hm
  have hb := getTile_bounds hl.1
  intro hs
  unfold Move.isSkip at hs
  simp only at hb
  omega

theorem legalDest_congr (b1 b2 : Board) (h : b1.tiles = b2.tiles) (t : Tile) (e : Int × Int) :
    LegalDest b1 t e ↔ LegalDest b2 t e := by
  have hg : ∀ x y, getTile b1 x y = getTile b2 x y := by
    intro x y
    unfold getTile
    split <;> simp [h]
  unfold LegalDest RunOther
  simp only [hg]

theorem hasMove_congr (b1 b2 : Board) (h : b1.tiles = b2.tiles) (t : Tile) :
    HasMove b1 t ↔ HasMove b2 t :=
  exists_congr fun e => legalDest_congr b1 b2 h t e

theorem validMoves_nil_iff (b : Board) :
    validMoves b = [] ↔ ¬HasMove b Tile.black ∧ ¬HasMove b Tile.white := by
  have ht := forColor_stone_any b.nextToMove
  have hto := stone_other_stone ht
  have key : validMoves b = [] ↔
      (validMovesFor b (Tile.forColor b.nextToMove) = [] ∧
        validMovesFor b (Tile.forColor b.nextToMove).other = []) := by
    simp only [validMoves]
    by_cases h1 : validMovesFor b (Tile.forColor b.nextToMove) = []
    · rw [if_pos h1]
      by_cases h2 : validMovesFor b (Tile.forColor b.nextToMove).other = []
      · rw [if_pos h2]
        simp [h1, h2]
      · rw [if_neg h2]
        simp [h2]
    · rw [if_neg h1]
      simp [h1]
  rw [key, validMovesFor_nil_iff ht, validMovesFor_nil_iff hto]
  rcases ht with h | h <;> rw [h]
  · exact Iff.rfl
  · exact and_comm

theorem skip_mem_validMoves {b : Board} {m : Move} (hm : m ∈ validMoves b)
    (hs : m.isSkip) :
    validMovesFor b (Tile.forColor b.nextToMove) = [] ∧
    validMovesFor b (Tile.forColor b.nextToMove).other ≠ [] ∧
    m = Move.createSkip (Tile.forColor b.nextToMove).stoneColor := by
  have ht := forColor_stone_any b.nextToMove
  simp only [validMoves] at hm
  by_cases h1 : validMovesFor b (Tile.forColor b.nextToMove) = []
  · rw [if_pos h1] at hm
    by_cases h2 : validMovesFor b (Tile.forColor b.nextToMove).other = []
    · rw [if_pos h2] at hm
      exact absurd hm (List.not_mem_nil m)
    · rw [if_neg h2] at hm
      exact ⟨h1, h2, List.mem_singleton.mp hm⟩
  · rw [if_neg h1] at hm
    exact absurd hs (nonskip_of_mem_validMovesFor ht hm)

theorem applyBoard_skip {b : Board} {m : Move} (h : m.isSkip) :
    applyBoard b m = { b with nextToMove := some m.color.other } := by
  simp only [applyBoard, applyDestructive, if_pos h]

theorem nextToMove_foldl_setCell (t : Tile) :
    ∀ (l : List (Int × Int)) (b : Board),
      (l.foldl (fun bb p => setCell bb p.1 p.2 t) b).nextToMove = b.nextToMove := by
  intro l
  induction l with
  | nil => intro b; rfl
  | cons p l ih => intro b; exact ih (setCell b p.1 p.2 t)

theorem nextToMove_applyDir (b : Board) (t other : Tile) (mx my : Int) (n : Int × Int) :
    (applyDir b t other mx my n).nextToMove = b.nextToMove := by
  simp only [applyDir]
  split
  · exact nextToMove_foldl_setCell t _ b
  · rfl

theorem nextToMove_foldl_applyDir (t other : Tile) (mx my : Int) :
    ∀ (l : List (Int × Int)) (b : Board),
      (l.foldl (fun bb n => applyDir bb t other mx my n) b).nextToMove = b.nextToMove := by
  intro l
  induction l with
  | nil => intro b; rfl
  | cons n l ih =>
    intro b
    rw [List.foldl_cons, ih (applyDir b t other mx my n), nextToMove_applyDir]

theorem applyBoard_nonskip {b : Board} {m : Move} (h : ¬ m.isSkip) :
    ∃ b4 : Board, b4.nextToMove = some m.color.other ∧
      applyBoard b m = (if validMoves b4 = [] then { b4 with nextToMove := none } else b4) := by
  simp only [applyBoard, applyDestructive, if_neg h]
  refine ⟨_, ?_, rfl⟩
  rw [nextToMove_foldl_applyDir]
  rfl

theorem noEmpty_noMove {b : Board} {t : Tile}
    (h : ∀ x y : Int, getTile b x y ≠ some Tile.empty) : ¬ HasMove b t := by
  rintro ⟨e, he, _⟩
  exact h e.1 e.2 he

/-- C4: on every board reachable from the opening by valid moves, next_to_move
is none exactly when neither color has a legal capturing move on the grid; in
particular a reachable board without empty cells is finished, and a reachable
board where both colors are stuck is finished even with empty cells left. -/
theorem claim_C4 (b : Board) (hreach : Reachable b) :
    (b.nextToMove = none ↔ ¬HasMove b Tile.black ∧ ¬HasMove b Tile.white) ∧
    ((∀ x y : Int, getTile b x y ≠ some Tile.empty) → b.nextToMove = none) ∧
    ((¬HasMove b Tile.black ∧ ¬HasMove b Tile.white) → b.nextToMove = none) := by
  have main : b.nextToMove = none ↔ ¬HasMove b Tile.black ∧ ¬HasMove b Tile.white := by
    induction hreach with
    | base =>
      constructor
      · intro hcon
        exact absurd hcon (by decide)
      · rintro ⟨hb, _⟩
        exfalso
        apply hb
        have hmem : Move.mk Color.black 3 2 ∈ movesStoneSeeded clearedBoard Tile.black := by
          decide
        obtain ⟨_, hl⟩ := (mem_movesStoneSeeded (Or.inl rfl)).mp hmem
        exact ⟨_, hl⟩
    | step hr hm ih =>
      rename_i b' m'
      by_cases hs : m'.isSkip
      · rw [applyBoard_skip hs]
        obtain ⟨h1, h2, hmeq⟩ := skip_mem_validMoves hm hs
        have ht := forColor_stone_any b'.nextToMove
        have hto := stone_other_stone ht
        have hHM : HasMove b' (Tile.forColor b'.nextToMove).other := by
          by_contra hno
          exact h2 ((validMovesFor_nil_iff hto).mpr hno)
        constructor
        · intro hcon
          exact Option.noConfusion hcon
        · rintro ⟨hb, hw⟩
          exfalso
          rcases hto with hcase | hcase <;> rw [hcase] at hHM
          · exact hb ((hasMove_congr { b' with nextToMove := some m'.color.other } b'
              rfl Tile.black).mpr hHM)
          · exact hw ((hasMove_congr { b' with nextToMove := some m'.color.other } b'
              rfl Tile.white).mpr hHM)
      · obtain ⟨b4, hb4next, happ⟩ := applyBoard_nonskip hs
        rw [happ]
        by_cases hnil : validMoves b4 = []
        · rw [if_pos hnil]
          have hstuck := (validMoves_nil_iff b4).mp hnil
          constructor
          · intro _
            constructor
            · exact fun hc => hstuck.1 ((hasMove_congr { b4 with nextToMove := none } b4
                rfl Tile.black).mp hc)
            · exact fun hc => hstuck.2 ((hasMove_congr { b4 with nextToMove := none } b4
                rfl Tile.white).mp hc)
          · intro _
            rfl
        · rw [if_neg hnil]
          constructor
          · intro hcon
            rw [hb4next] at hcon
            exact Option.noConfusion hcon
          · intro hc
            exact absurd ((validMoves_nil_iff b4).mpr hc) hnil
  refine ⟨main, ?_, main.mpr⟩
  intro hne
  exact main.mpr ⟨noEmpty_noMove hne, noEmpty_noMove hne⟩

/-- C4 witness: the theorem applied to the opening position itself. -/
theorem claim_C4_witness :
    (clearedBoard.nextToMove = none ↔
      ¬HasMove clearedBoard Tile.black ∧ ¬HasMove clearedBoard Tile.white) ∧
    ((∀ x y : Int, getTile clearedBoard x y ≠ some Tile.empty) →
      clearedBoard.nextToMove = none) ∧
    ((¬HasMove clearedBoard Tile.black ∧ ¬HasMove clearedBoard Tile.white) →
      clearedBoard.nextToMove = none) :=
  claim_C4 clearedBoard Reachable.base

/-- C5: when the color to move has no capturing move but the opponent has one,
valid_moves is exactly the one skip move, and applying it changes only
next_to_move, leaving the grid (and even the empty counter) intact. -/
theorem claim_C5 (b : Board) (c : Color) (h1 : b.nextToMove = some c)
    (h2 : ¬ HasMove b (Tile.forColor (some c)))
    (h3 : HasMove b (Tile.forColor (some c)).other) :
    validMoves b = [Move.createSkip c] ∧
    (applyBoard b (Move.createSkip c)).tiles = b.tiles ∧
    (applyBoard b (Move.createSkip c)).nextToMove = some c.other ∧
    (applyBoard b (Move.createSkip c)).emptyCount = b.emptyCount := by
  have ht := forColor_stone_any (some c)
  have hto := stone_other_stone ht
  have hvm : validMoves b = [Move.createSkip c] := by
    simp only [validMoves, h1]
    rw [if_pos ((validMovesFor_nil_iff ht).mpr h2),
      if_neg (fun heq => ((validMovesFor_nil_iff hto).mp heq) h3), stoneColor_forColor]
  have hskip : (Move.createSkip c).isSkip := by
    unfold Move.createSkip Move.isSkip
    norm_num
  have happ : applyBoard b (Move.createSkip c)
      = { b with nextToMove := some (Move.createSkip c).color.other } :=
    applyBoard_skip hskip
  rw [happ]
  exact ⟨hvm, rfl, rfl, rfl⟩

/-- C5 witness: on the board with row 0 = W B and black to move, valid_moves is
the black skip and applying it only flips the turn. -/
theorem claim_C5_witness :
    validMoves demoSkipBoard = [Move.createSkip Color.black] ∧
    (applyBoard demoSkipBoard (Move.createSkip Color.black)).tiles = demoSkipBoard.tiles ∧
    (applyBoard demoSkipBoard (Move.createSkip Color.black)).nextToMove
      = some Color.black.other ∧
    (applyBoard demoSkipBoard (Move.createSkip Color.black)).emptyCount
      = demoSkipBoard.emptyCount :=
  claim_C5 demoSkipBoard Color.black rfl
    ((validMovesFor_nil_iff (forColor_stone_any (some Color.black))).mp (by decide))
    (by
      have hmem : Move.mk Color.white 0 2
          ∈ movesStoneSeeded demoSkipBoard Tile.white := by decide
      obtain ⟨_, hl⟩ := (mem_movesStoneSeeded (Or.inr rfl)).mp hmem
      exact ⟨_, hl⟩)

/-- C2 (amended): for every board and mover color, the empty-seeded and the
stone-seeded ray strategies contain exactly the same moves, and _valid_moves_for
always agrees with both, so the empty-count threshold never changes which moves
are available as a set.  The original further asserted that the threshold never
changes any search result; that part is false, because the strategies emit the
shared moves in different orders and multiplicities, the preference sort is
stable, and _negamax keeps the first strictly improving move, so on equal-score
ties the returned best move depends on the enumeration order. -/
theorem claim_C2 (b : Board) (c : Color) (m : Move) :
    (m ∈ movesEmptySeeded b (Tile.forColor (some c)) ↔
      m ∈ movesStoneSeeded b (Tile.forColor (some c))) ∧
    (m ∈ validMovesFor b (Tile.forColor (some c)) ↔
      m ∈ movesEmptySeeded b (Tile.forColor (some c))) := by
  have ht := forColor_stone_any (some c)
  constructor
  · rw [mem_movesEmptySeeded ht, mem_movesStoneSeeded ht]
  · unfold validMovesFor
    split
    · exact Iff.rfl
    · rw [mem_movesStoneSeeded ht, mem_movesEmptySeeded ht]

/-- C2 counterexample: two boards with identical tiles and identical turn, one on
each side of the empty-count threshold, for which _valid_moves_for takes the two
different branches and _negamax at depth 1 with the default matrix and open
bounds returns two different best moves (of equal score): the threshold changes
a search result even though the available move sets coincide. -/
theorem claim_C2_counterexample :
    demoTieBoardLate.tiles = demoTieBoard.tiles ∧
    demoTieBoardLate.nextToMove = demoTieBoard.nextToMove ∧
    countTile demoTieBoard Tile.empty = 57 ∧
    demoTieBoard.emptyCount = 57 ∧
    demoTieBoardLate.emptyCount = 10 ∧
    validMovesFor demoTieBoard Tile.black = movesStoneSeeded demoTieBoard Tile.black ∧
    validMovesFor demoTieBoardLate Tile.black
      = movesEmptySeeded demoTieBoardLate Tile.black ∧
    (negamax defaultMatrix 1 demoTieBoard none none (some Color.black)).score
      = (negamax defaultMatrix 1 demoTieBoardLate none none (some Color.black)).score ∧
    (negamax defaultMatrix 1 demoTieBoard none none (some Color.black)).move
      ≠ (negamax defaultMatrix 1 demoTieBoardLate none none (some Color.black)).move := by
  decide

/-- C8: the cleared board has two stones of each color on the four center cells,
black to move, and exactly four legal moves. -/
theorem claim_C8 :
    countTile clearedBoard Tile.black = 2 ∧
    countTile clearedBoard Tile.white = 2 ∧
    getTile clearedBoard 3 3 = some Tile.white ∧
    getTile clearedBoard 4 4 = some Tile.white ∧
    getTile clearedBoard 3 4 = some Tile.black ∧
    getTile clearedBoard 4 3 = some Tile.black ∧
    clearedBoard.nextToMove = some Color.black ∧
    (validMoves clearedBoard).length = 4 := by decide

/-- C9: a position with more than 50 empty cells on which valid_moves returns the
same black destination (0, 2) twice, once per bracketing ray, without dedup. -/
theorem claim_C9 :
    50 ≤ countTile demoDupBoard Tile.empty ∧
    demoDupBoard.emptyCount = 60 ∧
    List.count (Move.mk Color.black 0 2) (validMoves demoDupBoard) = 2 := by decide

/-- C1 fails as stated: on a board with more than 50 empty cells the generator
runs the stone-seeded strategy, not the empty-seeded one the claim describes,
observably so because the produced lists differ. -/
theorem claim_C1_counterexample :
    50 < demoDupBoard.emptyCount ∧
    50 < countTile demoDupBoard Tile.empty ∧
    validMovesFor demoDupBoard Tile.black = movesStoneSeeded demoDupBoard Tile.black ∧
    validMovesFor demoDupBoard Tile.black ≠ movesEmptySeeded demoDupBoard Tile.black := by
  decide

/-- C1 amended: _valid_moves_for seeds rays from empty cells (terminating on the
mover stone and recording the seed) exactly when fewer than 50 cells are empty,
and from the mover stones (terminating on an empty cell and recording it)
exactly when at least 50 cells are empty. -/
theorem claim_C1_amended (b : Board) (t : Tile) :
    (b.emptyCount < 50 → validMovesFor b t = movesEmptySeeded b t) ∧
    (50 ≤ b.emptyCount → validMovesFor b t = movesStoneSeeded b t) := by
  constructor
  · intro h
    unfold validMovesFor
    rw [if_pos h]
  · intro h
    unfold validMovesFor
    rw [if_neg (by omega)]

/-- C1 amended witness: the stone-seeded branch on the duplicate demo board with
60 empties, and the empty-seeded branch on the same grid with the counter at 10. -/
theorem claim_C1_amended_witness :
    validMovesFor demoDupBoard Tile.black = movesStoneSeeded demoDupBoard Tile.black ∧
    validMovesFor { demoDupBoard with emptyCount := 10 } Tile.black
      = movesEmptySeeded { demoDupBoard with emptyCount := 10 } Tile.black :=
  ⟨(claim_C1_amended demoDupBoard Tile.black).2 (by decide),
   (claim_C1_amended { demoDupBoard with emptyCount := 10 } Tile.black).1 (by decide)⟩

/-! ## Static evaluation: antisymmetry and terminal values -/

theorem sum_map_neg {α : Type} (l : List α) (f : α → Int) :
    (l.map fun a => -(f a)).sum = -((l.map f).sum) := by
  induction l with
  | nil => simp
  | cons a l ih =>
    simp [ih]
    ring

theorem forColor_other_eq (c : Color) :
    (Tile.forColor (some c)).other = Tile.forColor (some c.other) := by
  cases c <;> rfl

theorem evaluateHeuristic_antisym (M : List (List Int)) (b : Board) (c : Color) :
    evaluateHeuristic M b (some c) = -(evaluateHeuristic M b (some c.other)) := by
  simp only [evaluateHeuristic]
  rw [← sum_map_neg]
  congr 1
  apply List.map_congr_left
  intro p _
  cases c <;>
  · rcases hgt : getTile b p.1 p.2 with _ | tile
    · simp [hgt, Tile.forColor, Tile.other, Color.other]
    · cases tile <;> simp [hgt, Tile.forColor, Tile.other, Color.other]

/-- C6: the static evaluation is antisymmetric in the color on non-terminal
boards, and on terminal boards it is exactly 999 for the winner, -999 for the
loser, and 0 for both colors on a draw, never the heuristic sum. -/
theorem claim_C6 (M : List (List Int)) (b : Board) (c : Color) :
    (b.nextToMove ≠ none → evaluate M b (some c) = -(evaluate M b (some c.other))) ∧
    (b.nextToMove = none →
      ((scoreOf b).winningColor = none → evaluate M b (some c) = 0) ∧
      (∀ w : Color, (scoreOf b).winningColor = some w →
        evaluate M b (some w) = 999 ∧ evaluate M b (some w.other) = -999)) := by
  constructor
  · intro h
    unfold evaluate
    rw [if_neg h, if_neg h]
    exact evaluateHeuristic_antisym M b c
  · intro h
    constructor
    · intro hw
      unfold evaluate
      rw [if_pos h, hw]
    · intro w hw
      unfold evaluate
      rw [if_pos h, if_pos h, hw]
      have hne : w.other ≠ w := by cases w <;> decide
      constructor
      · simp
      · simp [hne]

/-- C6 witness: antisymmetry on the opening board, and the exact terminal values
on a drawn and on a black-won terminal board. -/
theorem claim_C6_witness :
    evaluate defaultMatrix clearedBoard (some Color.black)
      = -(evaluate defaultMatrix clearedBoard (some Color.white)) ∧
    evaluate defaultMatrix termDrawBoard (some Color.black) = 0 ∧
    evaluate defaultMatrix termWinBoard (some Color.black) = 999 ∧
    evaluate defaultMatrix termWinBoard (some Color.black.other) = -999 :=
  ⟨(claim_C6 defaultMatrix clearedBoard Color.black).1 (by decide),
   ((claim_C6 defaultMatrix termDrawBoard Color.black).2 rfl).1 (by decide),
   (((claim_C6 defaultMatrix termWinBoard Color.black).2 rfl).2 Color.black (by decide)).1,
   (((claim_C6 defaultMatrix termWinBoard Color.black).2 rfl).2 Color.black (by decide)).2⟩

/-- C10: next_move on a finished board raises nothing: negamax immediately
returns the terminal evaluation with no move, so the returned move is None and
the recorded last score is the terminal evaluation, one of 999, -999 or 0. -/
theorem claim_C10 (M : List (List Int)) (d : Nat) (b : Board) (h : b.finished) :
    (nextMove M d b).1 = none ∧
    (nextMove M d b).2 = evaluate M b b.nextToMove ∧
    ((nextMove M d b).2 = 999 ∨ (nextMove M d b).2 = -999 ∨ (nextMove M d b).2 = 0) := by
  have hnone : b.nextToMove = none := h
  have hneg : negamax M d b none none b.nextToMove
      = ⟨evaluate M b b.nextToMove, none⟩ := by
    cases d with
    | zero => rfl
    | succ d => simp [negamax, hnone]
  unfold nextMove
  rw [hneg]
  refine ⟨rfl, rfl, ?_⟩
  unfold evaluate
  rw [hnone]
  simp only [if_pos rfl]
  rcases hw : (scoreOf b).winningColor with _ | w
  · right; right; rfl
  · right; left
    simp

/-- C10 witness: next_move at depth 3 on a finished drawn board returns no move
and records the draw evaluation 0. -/
theorem claim_C10_witness :
    (nextMove defaultMatrix 3 termDrawBoard).1 = none ∧
    (nextMove defaultMatrix 3 termDrawBoard).2
      = evaluate defaultMatrix termDrawBoard termDrawBoard.nextToMove ∧
    ((nextMove defaultMatrix 3 termDrawBoard).2 = 999 ∨
      (nextMove defaultMatrix 3 termDrawBoard).2 = -999 ∨
      (nextMove defaultMatrix 3 termDrawBoard).2 = 0) :=
  claim_C10 defaultMatrix 3 termDrawBoard rfl

/-! ## Alpha-beta pruning never changes the negamax result -/

theorem neg_none : neg none = none := rfl

theorem neg_some (v : Int) : neg (some v) = some (-v) := rfl

theorem alphaRel_of_betaRel {b1 b2 : Option Int} (h : BetaRel b1 b2) :
    AlphaRel (neg b1) (neg b2) := by
  rcases h with ⟨rfl, hmid⟩ | ⟨h1, h2⟩
  · left
    refine ⟨rfl, ?_⟩
    intro v hv
    rcases b1 with _ | u
    · exact absurd hv (by simp [neg])
    · rw [neg_some] at hv
      have := hmid u rfl
      have hv' := Option.some.inj hv
      omega
  · right
    constructor <;>
    · intro v hv
      first
        | (rcases b1 with _ | u
           · exact absurd hv (by simp [neg])
           · rw [neg_some] at hv
             have := h1 u rfl
             have hv' := Option.some.inj hv
             omega)
        | (rcases b2 with _ | u
           · exact absurd hv (by simp [neg])
           · rw [neg_some] at hv
             have := h2 u rfl
             have hv' := Option.some.inj hv
             omega)

theorem betaRel_of_alphaRel {a1 a2 : Option Int} (h : AlphaRel a1 a2) :
    BetaRel (neg a1) (neg a2) := by
  rcases h with ⟨rfl, hmid⟩ | ⟨h1, h2⟩
  · left
    refine ⟨rfl, ?_⟩
    intro v hv
    rcases a1 with _ | u
    · exact absurd hv (by simp [neg])
    · rw [neg_some] at hv
      have := hmid u rfl
      have hv' := Option.some.inj hv
      omega
  · right
    constructor <;>
    · intro v hv
      first
        | (rcases a1 with _ | u
           · exact absurd hv (by simp [neg])
           · rw [neg_some] at hv
             have := h1 u rfl
             have hv' := Option.some.inj hv
             omega)
        | (rcases a2 with _ | u
           · exact absurd hv (by simp [neg])
           · rw [neg_some] at hv
             have := h2 u rfl
             have hv' := Option.some.inj hv
             omega)

theorem length_insertPref (M : List (List Int)) (m : Move) :
    ∀ l : List Move, (insertPref M m l).length = l.length + 1 := by
  intro l
  induction l with
  | nil => rfl
  | cons x xs ih =>
    simp only [insertPref]
    split
    · simp
    · simp [ih]

theorem length_sortMoves (M : List (List Int)) :
    ∀ l : List Move, (sortMoves M l).length = l.length := by
  intro l
  induction l with
  | nil => rfl
  | cons x xs ih =>
    simp only [sortMoves, List.foldr_cons]
    rw [length_insertPref]
    simp only [sortMoves] at ih
    rw [ih, List.length_cons]

theorem sortMoves_ne_nil {M : List (List Int)} {l : List Move} (h : l ≠ []) :
    sortMoves M l ≠ [] := by
  intro hc
  apply h
  have := length_sortMoves M l
  rw [hc] at this
  simpa using (List.length_eq_zero.mp this.symm)

theorem valueUp_fst_some (value : Option Int) (s : Int) (best : Option Move) (m : Move) :
    ∃ v : Int, (valueUp value s best m).1 = some v ∧
      ((value = none ∧ v = s) ∨ (∃ v0, value = some v0 ∧ (v = s ∨ v = v0))) := by
  rcases value with _ | v0
  · exact ⟨s, rfl, Or.inl ⟨rfl, rfl⟩⟩
  · simp only [valueUp]
    split
    · exact ⟨s, rfl, Or.inr ⟨v0, rfl, Or.inl rfl⟩⟩
    · exact ⟨v0, rfl, Or.inr ⟨v0, rfl, Or.inr rfl⟩⟩

theorem alphaUp_some (alpha : Option Int) (v : Int) :
    ∃ a0 : Int, alphaUp alpha (some v) = some a0 ∧
      ((alpha = none ∧ a0 = v) ∨ (∃ u, alpha = some u ∧ (a0 = v ∨ a0 = u))) := by
  rcases alpha with _ | u
  · exact ⟨v, rfl, Or.inl ⟨rfl, rfl⟩⟩
  · simp only [alphaUp]
    split
    · exact ⟨v, rfl, Or.inr ⟨u, rfl, Or.inl rfl⟩⟩
    · exact ⟨u, rfl, Or.inr ⟨u, rfl, Or.inr rfl⟩⟩

/-- A fold whose running value is already set keeps its result value set. -/
theorem negamaxFold_fst_isSome (child : Move → Option Int → Int) (beta : Option Int) :
    ∀ (l : List Move) (value : Option Int) (best : Option Move) (alpha : Option Int),
      value.isSome → (negamaxFold child beta l value best alpha).1.isSome := by
  intro l
  induction l with
  | nil =>
    intro value best alpha h
    exact h
  | cons m rest ih =>
    intro value best alpha h
    obtain ⟨v, hv1, _⟩ := valueUp_fst_some value (child m alpha) best m
    simp only [negamaxFold]
    split
    · rw [hv1]
      rfl
    · exact ih (valueUp value (child m alpha) best m).1
        (valueUp value (child m alpha) best m).2
        (alphaUp alpha (valueUp value (child m alpha) best m).1) (by rw [hv1]; rfl)

/-- Starting with an unset value on a nonempty move list, the fold sets a value. -/
theorem negamaxFold_fst_isSome_of_ne_nil (child : Move → Option Int → Int)
    (beta : Option Int) {l : List Move} (h : l ≠ []) (best : Option Move)
    (alpha : Option Int) :
    (negamaxFold child beta l none best alpha).1.isSome := by
  rcases l with _ | ⟨m, rest⟩
  · exact absurd rfl h
  obtain ⟨v, hv1, _⟩ := valueUp_fst_some none (child m alpha) best m
  simp only [negamaxFold]
  split
  · rw [hv1]
    rfl
  · exact negamaxFold_fst_isSome child beta rest
      (valueUp none (child m alpha) best m).1
      (valueUp none (child m alpha) best m).2
      (alphaUp alpha (valueUp none (child m alpha) best m).1) (by rw [hv1]; rfl)

/-- Any value the fold returns is one of the child scores or the initial value,
hence stays within the score range. -/
theorem negamaxFold_fst_bound (child : Move → Option Int → Int) (beta : Option Int)
    (hc : ∀ m a, -999 ≤ child m a ∧ child m a ≤ 999) :
    ∀ (l : List Move) (value : Option Int) (best : Option Move) (alpha : Option Int),
      (∀ v, value = some v → -999 ≤ v ∧ v ≤ 999) →
      ∀ v, (negamaxFold child beta l value best alpha).1 = some v → -999 ≤ v ∧ v ≤ 999 := by
  intro l
  induction l with
  | nil =>
    intro value best alpha hval v hv
    exact hval v hv
  | cons m rest ih =>
    intro value best alpha hval v hv
    obtain ⟨v', hv1, hcase⟩ := valueUp_fst_some value (child m alpha) best m
    have hv'b : -999 ≤ v' ∧ v' ≤ 999 := by
      rcases hcase with ⟨_, h'⟩ | ⟨v0, hv0, hor⟩
      · rw [h']
        exact hc m alpha
      · rcases hor with h' | h'
        · rw [h']
          exact hc m alpha
        · rw [h']
          exact hval v0 hv0
    have hval' : ∀ u, (valueUp value (child m alpha) best m).1 = some u →
        -999 ≤ u ∧ u ≤ 999 := by
      intro u hu
      rw [hv1] at hu
      cases Option.some.inj hu
      exact hv'b
    simp only [negamaxFold] at hv
    rcases hsplit : cutoff beta (alphaUp alpha (valueUp value (child m alpha) best m).1)
      with _ | _
    · rw [if_neg (by rw [hsplit]; exact Bool.false_ne_true)] at hv
      exact ih (valueUp value (child m alpha) best m).1
        (valueUp value (child m alpha) best m).2
        (alphaUp alpha (valueUp value (child m alpha) best m).1) hval' v hv
    · rw [if_pos hsplit] at hv
      exact hval' v hv

/-- Negamax scores always lie in the evaluation range: every returned value is
an evaluation or a negated maximum of child values. -/
theorem negamax_score_bound (M : List (List Int))
    (hM : ∀ b c, -999 ≤ evaluate M b c ∧ evaluate M b c ≤ 999) :
    ∀ (d : Nat) (b : Board) (alpha beta : Option Int) (c : Option Color),
      -999 ≤ (negamax M d b alpha beta c).score ∧
        (negamax M d b alpha beta c).score ≤ 999 := by
  intro d
  induction d with
  | zero =>
    intro b alpha beta c
    exact hM b c
  | succ d ih =>
    intro b alpha beta c
    simp only [negamax]
    by_cases hfin : b.nextToMove = none
    · rw [if_pos hfin]
      exact hM b c
    · rw [if_neg hfin]
      by_cases hvm : validMoves b = []
      · rw [if_pos hvm]
        exact hM b c
      · rw [if_neg hvm]
        have hne : sortMoves M (validMoves b) ≠ [] := sortMoves_ne_nil hvm
        have hsome := negamaxFold_fst_isSome_of_ne_nil
          (fun m a => -(negamax M d (applyBoard b m) (neg beta) (neg a)
            (c.map Color.other)).score)
          beta hne none alpha
        obtain ⟨v, hv⟩ := Option.isSome_iff_exists.mp hsome
        have hvb := negamaxFold_fst_bound
          (fun m a => -(negamax M d (applyBoard b m) (neg beta) (neg a)
            (c.map Color.other)).score)
          beta
          (fun m a => by
            show -999 ≤ -(negamax M d (applyBoard b m) (neg beta) (neg a)
                (c.map Color.other)).score ∧
              -(negamax M d (applyBoard b m) (neg beta) (neg a)
                (c.map Color.other)).score ≤ 999
            have hrec := ih (applyBoard b m) (neg beta) (neg a) (c.map Color.other)
            constructor <;> omega)
          (sortMoves M (validMoves b)) none none alpha
          (fun u hu => Option.noConfusion hu) v hv
        rw [hv, Option.getD_some]
        exact hvb

/-- Core equivalence: the candidate loop gives identical results under related
alpha and beta bounds, with identical in-range running state. -/
theorem negamaxFold_equiv (child1 child2 : Move → Option Int → Int) (β1 β2 : Option Int)
    (hch : ∀ m a1 a2, AlphaRel a1 a2 → child1 m a1 = child2 m a2)
    (hcb : ∀ m a, -999 ≤ child1 m a ∧ child1 m a ≤ 999)
    (hβ : BetaRel β1 β2) :
    ∀ (l : List Move) (value : Option Int) (best : Option Move) (α1 α2 : Option Int),
      ((value = none ∧ AlphaRel α1 α2) ∨
        (∃ v, value = some v ∧ -999 ≤ v ∧ v ≤ 999 ∧ α1 = α2 ∧ MidBound α1)) →
      negamaxFold child1 β1 l value best α1 = negamaxFold child2 β2 l value best α2 := by
  intro l
  induction l with
  | nil =>
    intro value best α1 α2 _
    rfl
  | cons m rest ih =>
    intro value best α1 α2 hinv
    have hα : AlphaRel α1 α2 := by
      rcases hinv with ⟨_, hα⟩ | ⟨v, _, _, _, heq, hmid⟩
      · exact hα
      · exact Or.inl ⟨heq, hmid⟩
    have hs : child1 m α1 = child2 m α2 := hch m α1 α2 hα
    obtain ⟨v', hv1, hcase⟩ := valueUp_fst_some value (child1 m α1) best m
    have hv'b : -999 ≤ v' ∧ v' ≤ 999 := by
      rcases hcase with ⟨_, h'⟩ | ⟨v0, hv0, hor⟩
      · rw [h']
        exact hcb m α1
      · rcases hor with h' | h'
        · rw [h']
          exact hcb m α1
        · rw [h']
          rcases hinv with ⟨hn, _⟩ | ⟨v1, hv1', hb1, hb2, _, _⟩
          · rw [hn] at hv0
            exact Option.noConfusion hv0
          · rw [hv1'] at hv0
            cases Option.some.inj hv0
            exact ⟨hb1, hb2⟩
    have haup : alphaUp α1 (some v') = alphaUp α2 (some v') ∧
        ∃ a0, alphaUp α1 (some v') = some a0 ∧ -1000 < a0 ∧ a0 < 1000 := by
      rcases hα with ⟨heq, hmid⟩ | ⟨h1, h2⟩
      · subst heq
        refine ⟨rfl, ?_⟩
        rcases α1 with _ | u
        · exact ⟨v', rfl, by omega, by omega⟩
        · have := hmid u rfl
          simp only [alphaUp]
          split
          · exact ⟨v', rfl, by omega, by omega⟩
          · exact ⟨u, rfl, by omega, by omega⟩
      · have e1 : alphaUp α1 (some v') = some v' := by
          rcases α1 with _ | u
          · rfl
          · have := h1 u rfl
            simp only [alphaUp]
            rw [if_pos (by omega)]
        have e2 : alphaUp α2 (some v') = some v' := by
          rcases α2 with _ | u
          · rfl
          · have := h2 u rfl
            simp only [alphaUp]
            rw [if_pos (by omega)]
        rw [e1, e2]
        exact ⟨rfl, v', rfl, by omega, by omega⟩
    obtain ⟨haeq, a0, ha0, ha0lo, ha0hi⟩ := haup
    have ha0' : alphaUp α2 (some v') = some a0 := by
      rw [← haeq]
      exact ha0
    have hvb2 : valueUp value (child2 m α2) best m = valueUp value (child1 m α1) best m := by
      rw [hs]
    have hmid0 : MidBound (some a0) := by
      intro u hu
      cases Option.some.inj hu
      exact ⟨ha0lo, ha0hi⟩
    simp only [negamaxFold]
    rw [hvb2, hv1, ha0, ha0']
    rcases hβ with ⟨heqβ, _⟩ | ⟨hH1, hH2⟩
    · subst heqβ
      by_cases hcut : cutoff β1 (some a0) = true
      · rw [if_pos hcut, if_pos hcut]
      · rw [if_neg hcut, if_neg hcut]
        exact ih (some v') _ (some a0) (some a0)
          (Or.inr ⟨v', rfl, hv'b.1, hv'b.2, rfl, hmid0⟩)
    · have hcut1 : cutoff β1 (some a0) = false := by
        rcases β1 with _ | b0
        · rfl
        · have := hH1 b0 rfl
          simp only [cutoff]
          exact decide_eq_false (by omega)
      have hcut2 : cutoff β2 (some a0) = false := by
        rcases β2 with _ | b0
        · rfl
        · have := hH2 b0 rfl
          simp only [cutoff]
          exact decide_eq_false (by omega)
      rw [if_neg (by rw [hcut1]; exact Bool.false_ne_true),
        if_neg (by rw [hcut2]; exact Bool.false_ne_true)]
      exact ih (some v') _ (some a0) (some a0)
        (Or.inr ⟨v', rfl, hv'b.1, hv'b.2, rfl, hmid0⟩)

/-- Negamax returns identical score and move under related bound arguments. -/
theorem negamax_equiv (M : List (List Int))
    (hM : ∀ b c, -999 ≤ evaluate M b c ∧ evaluate M b c ≤ 999) :
    ∀ (d : Nat) (b : Board) (c : Option Color) (α1 β1 α2 β2 : Option Int),
      AlphaRel α1 α2 → BetaRel β1 β2 →
      negamax M d b α1 β1 c = negamax M d b α2 β2 c := by
  intro d
  induction d with
  | zero =>
    intro b c α1 β1 α2 β2 _ _
    rfl
  | succ d ih =>
    intro b c α1 β1 α2 β2 hα hβ
    simp only [negamax]
    by_cases hfin : b.nextToMove = none
    · rw [if_pos hfin, if_pos hfin]
    · rw [if_neg hfin, if_neg hfin]
      by_cases hvm : validMoves b = []
      · rw [if_pos hvm, if_pos hvm]
      · rw [if_neg hvm, if_neg hvm]
        have hfold := negamaxFold_equiv
          (fun m a => -(negamax M d (applyBoard b m) (neg β1) (neg a)
            (c.map Color.other)).score)
          (fun m a => -(negamax M d (applyBoard b m) (neg β2) (neg a)
            (c.map Color.other)).score)
          β1 β2
          (fun m a1 a2 ha => by
            show -(negamax M d (applyBoard b m) (neg β1) (neg a1)
                (c.map Color.other)).score
              = -(negamax M d (applyBoard b m) (neg β2) (neg a2)
                (c.map Color.other)).score
            have hrec := ih (applyBoard b m) (c.map Color.other) (neg β1) (neg a1)
              (neg β2) (neg a2) (alphaRel_of_betaRel hβ) (betaRel_of_alphaRel ha)
            rw [hrec])
          (fun m a => by
            show -999 ≤ -(negamax M d (applyBoard b m) (neg β1) (neg a)
                (c.map Color.other)).score ∧
              -(negamax M d (applyBoard b m) (neg β1) (neg a)
                (c.map Color.other)).score ≤ 999
            have hrec := negamax_score_bound M hM d (applyBoard b m) (neg β1) (neg a)
              (c.map Color.other)
            constructor <;> omega)
          hβ
          (sortMoves M (validMoves b)) none none α1 α2 (Or.inl ⟨rfl, hα⟩)
        rw [hfold]

/-- C3: negamax with pruning-enabling root bounds (at most -1000 and at least
1000, or absent) returns exactly the same score and best move as negamax with
unbounded alpha and beta, for every board, depth and color, provided every
static evaluation lies in the score range, as the default matrix ensures. -/
theorem claim_C3 (M : List (List Int))
    (hM : ∀ b c, -999 ≤ evaluate M b c ∧ evaluate M b c ≤ 999)
    (d : Nat) (b : Board) (c : Option Color) (alpha beta : Option Int)
    (halpha : LoBound alpha) (hbeta : HiBound beta) :
    negamax M d b alpha beta c = negamax M d b none none c :=
  negamax_equiv M hM d b c alpha beta none none
    (Or.inr ⟨halpha, fun _ hv => Option.noConfusion hv⟩)
    (Or.inr ⟨hbeta, fun _ hv => Option.noConfusion hv⟩)

theorem sum_abs_bound {α : Type} (l : List α) (f g : α → Int)
    (h : ∀ a ∈ l, |f a| ≤ g a) : |(l.map f).sum| ≤ (l.map g).sum := by
  induction l with
  | nil => simp
  | cons a l ih =>
    simp only [List.map_cons, List.sum_cons]
    calc |f a + (l.map f).sum| ≤ |f a| + |(l.map f).sum| := abs_add _ _
      _ ≤ g a + (l.map g).sum :=
        add_le_add (h a (List.mem_cons_self a l))
          (ih fun x hx => h x (List.mem_cons_of_mem a hx))

/-- The default weight matrix satisfies the score-range requirement: its absolute
cell weights sum to 224, so every heuristic value lies within the terminal range. -/
theorem evaluate_default_bound :
    ∀ (b : Board) (c : Option Color),
      -999 ≤ evaluate defaultMatrix b c ∧ evaluate defaultMatrix b c ≤ 999 := by
  intro b c
  unfold evaluate
  split
  · split
    · norm_num
    · split <;> norm_num
  · have hsum : ((allCellsInt.map fun p => |matAt defaultMatrix p.1 p.2|).sum) = 224 := by
      decide
    have key : |evaluateHeuristic defaultMatrix b c| ≤ 224 := by
      have habs := sum_abs_bound allCellsInt
        (fun p => if getTile b p.1 p.2 = some (Tile.forColor c) then
            matAt defaultMatrix p.1 p.2
          else if getTile b p.1 p.2 = some (Tile.forColor c).other then
            -matAt defaultMatrix p.1 p.2
          else 0)
        (fun p => |matAt defaultMatrix p.1 p.2|)
        (fun p _ => by
          show |if getTile b p.1 p.2 = some (Tile.forColor c) then
              matAt defaultMatrix p.1 p.2
            else if getTile b p.1 p.2 = some (Tile.forColor c).other then
              -matAt defaultMatrix p.1 p.2
            else 0| ≤ |matAt defaultMatrix p.1 p.2|
          split
          · exact le_refl _
          · split
            · rw [abs_neg (matAt defaultMatrix p.1 p.2)]
            · simp [abs_nonneg])
      rw [hsum] at habs
      exact habs
    have hb := abs_le.mp key
    constructor <;> omega

/-- C3 witness: at depth 1 from the opening board, the search with root bounds
-1000 and 1000 returns the same result as the unbounded search. -/
theorem claim_C3_witness :
    negamax defaultMatrix 1 clearedBoard (some (-1000)) (some 1000) (some Color.black)
      = negamax defaultMatrix 1 clearedBoard none none (some Color.black) :=
  claim_C3 defaultMatrix evaluate_default_bound 1 clearedBoard (some Color.black)
    (some (-1000)) (some 1000)
    (fun _ hv => le_of_eq (Option.some.inj hv).symm)
    (fun _ hv => le_of_eq (Option.some.inj hv))

/-! ## The apply frame property over the row heap -/

theorem cloneH_view_orig (s : RowStore) (o : BoardObj) (hwf : o.wf s) :
    viewBoard (cloneH s o).1 o = viewBoard s o := by
  unfold viewBoard cloneH
  rw [Board.mk.injEq]
  refine ⟨?_, rfl, rfl⟩
  funext i j
  dsimp only
  rw [dif_neg]
  rintro ⟨h1, _⟩
  have := hwf i
  omega

theorem cloneH_view_clone (s : RowStore) (o : BoardObj) :
    viewBoard (cloneH s o).1 (cloneH s o).2 = viewBoard s o := by
  unfold viewBoard cloneH
  rw [Board.mk.injEq]
  refine ⟨?_, rfl, rfl⟩
  funext i j
  have hi := i.isLt
  dsimp only
  rw [dif_pos ⟨by omega, by omega⟩]
  have hidx : (⟨s.alloc + (i : Nat) - s.alloc, by omega⟩ : Fin 8) = i := by
    apply Fin.ext
    simp only
    omega
  rw [hidx]

theorem foldl_rowUpdate_notin (g : Fin 8 → Fin 8 → Tile) (refs : Fin 8 → Nat) (r : Nat) :
    ∀ (l : List (Fin 8)), (∀ i ∈ l, r ≠ refs i) → ∀ f0 : Nat → Fin 8 → Tile,
      (l.foldl (fun f i => fun r' j => if r' = refs i then g i j else f r' j) f0) r
        = f0 r := by
  intro l
  induction l with
  | nil =>
    intro _ f0
    rfl
  | cons a l ih =>
    intro hr f0
    rw [List.foldl_cons, ih (fun i hi => hr i (List.mem_cons_of_mem a hi))]
    funext j
    rw [if_neg (hr a (List.mem_cons_self a l))]

theorem foldl_rowUpdate_mem (g : Fin 8 → Fin 8 → Tile) (refs : Fin 8 → Nat)
    (hinj : ∀ i j : Fin 8, refs i = refs j → i = j) :
    ∀ (l : List (Fin 8)), l.Nodup → ∀ i : Fin 8, i ∈ l → ∀ f0 : Nat → Fin 8 → Tile,
      (l.foldl (fun f i => fun r' j => if r' = refs i then g i j else f r' j) f0) (refs i)
        = g i := by
  intro l
  induction l with
  | nil =>
    intro _ i hmem
    exact absurd hmem (List.not_mem_nil i)
  | cons a l ih =>
    intro hnd i hmem f0
    rw [List.foldl_cons]
    rcases List.mem_cons.mp hmem with rfl | hmem'
    · have hni : ∀ j ∈ l, refs i ≠ refs j := by
        intro j hj heq
        have hij := hinj i j heq
        exact (List.nodup_cons.mp hnd).1 (hij ▸ hj)
      rw [foldl_rowUpdate_notin g refs (refs i) l hni]
      funext j
      rw [if_pos rfl]
    · exact ih (List.nodup_cons.mp hnd).2 i hmem' _

/-- C7: apply is pure from the caller's perspective.  Running apply on a
well-formed board object leaves the original object's grid, next_to_move and
derived score exactly as before, returns an object all of whose rows are fresh
(a new Board object, sharing no row with the original), and the new object
denotes exactly the board value the pure apply computes. -/
theorem board_ext (b1 b2 : Board) (ht : ∀ i j : Fin 8, b1.tiles i j = b2.tiles i j)
    (hn : b1.nextToMove = b2.nextToMove) (he : b1.emptyCount = b2.emptyCount) :
    b1 = b2 := by
  cases b1
  cases b2
  simp only at ht hn he
  rw [Board.mk.injEq]
  exact ⟨funext fun i => funext fun j => ht i j, hn, he⟩

theorem claim_C7 (s : RowStore) (o : BoardObj) (m : Move) (hwf : o.wf s) :
    viewBoard (applyH s o m).1 o = viewBoard s o ∧
    scoreOf (viewBoard (applyH s o m).1 o) = scoreOf (viewBoard s o) ∧
    (∀ i j : Fin 8, (applyH s o m).2.rowRefs i ≠ o.rowRefs j) ∧
    viewBoard (applyH s o m).1 (applyH s o m).2 = applyBoard (viewBoard s o) m := by
  have hcv := cloneH_view_clone s o
  have hco := cloneH_view_orig s o hwf
  have hne : ∀ (i : Fin 8) (r : Nat), r < s.alloc → r ≠ (cloneH s o).2.rowRefs i := by
    intro i r hr
    show r ≠ s.alloc + (i : Nat)
    omega
  have hres : applyDestructive (viewBoard (cloneH s o).1 (cloneH s o).2) m
      = applyBoard (viewBoard s o) m := by
    rw [hcv]
    rfl
  have hA : viewBoard (applyH s o m).1 o = viewBoard s o := by
    apply board_ext
    · intro i j
      have h1 := foldl_rowUpdate_notin
        ((applyDestructive (viewBoard (cloneH s o).1 (cloneH s o).2) m).tiles)
        ((cloneH s o).2.rowRefs) (o.rowRefs i) (List.finRange 8)
        (fun i2 _ => hne i2 (o.rowRefs i) (hwf i)) ((cloneH s o).1.rows)
      have h2 := congrFun (congrFun (congrArg Board.tiles hco) i) j
      show (applyH s o m).1.rows (o.rowRefs i) j = s.rows (o.rowRefs i) j
      exact (congrFun h1 j).trans h2
    · rfl
    · rfl
  have hC : ∀ i j : Fin 8, (applyH s o m).2.rowRefs i ≠ o.rowRefs j := by
    intro i j
    show s.alloc + (i : Nat) ≠ o.rowRefs j
    have := hwf j
    omega
  have hD : viewBoard (applyH s o m).1 (applyH s o m).2
      = applyBoard (viewBoard s o) m := by
    apply board_ext
    · intro i j
      have h1 := foldl_rowUpdate_mem
        ((applyDestructive (viewBoard (cloneH s o).1 (cloneH s o).2) m).tiles)
        ((cloneH s o).2.rowRefs)
        (fun i2 j2 heq => by
          apply Fin.ext
          have h2 : s.alloc + (i2 : Nat) = s.alloc + (j2 : Nat) := heq
          omega)
        (List.finRange 8) (List.nodup_finRange 8) i (List.mem_finRange i)
        ((cloneH s o).1.rows)
      have h2 := congrFun (congrFun (congrArg Board.tiles hres) i) j
      show (applyH s o m).1.rows ((applyH s o m).2.rowRefs i) j
        = (applyBoard (viewBoard s o) m).tiles i j
      exact (congrFun h1 j).trans h2
    · show (applyDestructive (viewBoard (cloneH s o).1 (cloneH s o).2) m).nextToMove
        = (applyBoard (viewBoard s o) m).nextToMove
      exact congrArg Board.nextToMove hres
    · show (applyDestructive (viewBoard (cloneH s o).1 (cloneH s o).2) m).emptyCount
        = (applyBoard (viewBoard s o) m).emptyCount
      exact congrArg Board.emptyCount hres
  exact ⟨hA, congrArg scoreOf hA, hC, hD⟩

/-- C7 witness: applying a black move to a well-formed all-empty heap board
leaves the original object denoting the same board, with fresh result rows. -/
theorem claim_C7_witness :
    viewBoard (applyH demoStore demoObj (Move.mk Color.black 3 2)).1 demoObj
      = viewBoard demoStore demoObj ∧
    scoreOf (viewBoard (applyH demoStore demoObj (Move.mk Color.black 3 2)).1 demoObj)
      = scoreOf (viewBoard demoStore demoObj) ∧
    (∀ i j : Fin 8, (applyH demoStore demoObj (Move.mk Color.black 3 2)).2.rowRefs i
      ≠ demoObj.rowRefs j) ∧
    viewBoard (applyH demoStore demoObj (Move.mk Color.black 3 2)).1
        (applyH demoStore demoObj (Move.mk Color.black 3 2)).2
      = applyBoard (viewBoard demoStore demoObj) (Move.mk Color.black 3 2) :=
  claim_C7 demoStore demoObj (Move.mk Color.black 3 2) (fun i => i.isLt)

end Othello
